import Mathlib

/-!
Verification of the replay_task experiment scripts.

This file gives a shallow embedding of the randomized-mapping generators and
the adaptive training loop of the repository (src/experiment/utils.py,
src/experiment/training.py, src/experiment/applied_learning.py,
src/experiment/functional_localizer.py) and proves the specification claims
about them.  Randomness (`random.choice`, `random.sample`) is modelled by an
explicit stream of draw indices, respectively by quantifying over
permutations of the sampled population.
-/

set_option maxHeartbeats 1000000

/-- The eight abstract ("true") states `W X Y Z Wp Xp Yp Zp`
(utils.py uses their string names). -/
inductive St where
  | W | X | Y | Z | Wp | Xp | Yp | Zp
deriving DecidableEq, Repr, Fintype

/-- `true_sequence_1 = ['W', 'X', 'Y', 'Z']` (utils.py, create_random_mapping). -/
def true_sequence_1 : List St := [.W, .X, .Y, .Z]

/-- `true_sequence_2 = ['Wp', 'Xp', 'Yp', 'Zp']` (utils.py, create_random_mapping). -/
def true_sequence_2 : List St := [.Wp, .Xp, .Yp, .Zp]

/-- `true_state_names = ['W', 'X', 'Y', 'Z', 'Wp', 'Xp', 'Yp', 'Zp']` (training.py). -/
def true_state_names : List St := [.W, .X, .Y, .Z, .Wp, .Xp, .Yp, .Zp]

/-- `get_pos_and_seq` (utils.py): position (1-4) and sequence (1 or 2) of a state.
The Python version tests `"p" in state_name` and looks the position up in a dict;
on the eight state names this yields the table below. -/
def get_pos_and_seq : St → Nat × Nat
  | .W => (1, 1) | .X => (2, 1) | .Y => (3, 1) | .Z => (4, 1)
  | .Wp => (1, 2) | .Xp => (2, 2) | .Yp => (3, 2) | .Zp => (4, 2)

/-- A scrambling rule: the Python dict from state names to slot numbers,
as an (insertion-ordered) association list. -/
abbrev Rule := List (St × Nat)

/-- `random.choice(l)` given a raw draw `d`: an arbitrary index into `l`
(reduced mod the length).  On an empty list Python raises; we return `none`. -/
def choice (d : Nat) (l : List St) : Option St :=
  l.get? (d % l.length)

/-- The subset tag recorded by `create_random_mapping`:
`'seq1'` if the code is in `true_sequence_1`, else `'seq2'`. -/
def subset_of (c : St) : String :=
  if true_sequence_1.contains c then "seq1" else "seq2"

/-- Loop state of `create_random_mapping`: the remaining `available_codes`,
the `mapping` built so far and the `number_subsets` bookkeeping dict. -/
structure MapState where
  available : List St
  mapping : Rule
  number_subsets : List (Nat × String)

/-- One iteration (`for num in range(8)`) of `create_random_mapping` (utils.py):
slots 0 and 4 draw from all available codes, every other slot draws from the
codes of the subset opposite to `number_subsets[num - 1]`. -/
def crmStep (draws : Nat → Nat) (st : MapState) (num : Nat) : Option MapState :=
  let chosen? :=
    if num = 0 then
      -- First number can go anywhere
      choice (draws num) st.available
    else if num = 4 then
      -- Number 4 can go anywhere (no constraint with 3)
      choice (draws num) st.available
    else
      match st.number_subsets.lookup (num - 1) with
      | none => none
      | some prev_subset =>
        -- Must choose from the opposite subset
        let valid_codes :=
          if prev_subset = "seq1" then
            st.available.filter (fun code => true_sequence_2.contains code)
          else
            st.available.filter (fun code => true_sequence_1.contains code)
        choice (draws num) valid_codes
  match chosen? with
  | none => none
  | some chosen_code =>
    some { available := st.available.erase chosen_code
           mapping := st.mapping ++ [(chosen_code, num)]
           number_subsets := st.number_subsets ++ [(num, subset_of chosen_code)] }

/-- Initial loop state: `available_codes = true_sequence_1 + true_sequence_2`,
empty `mapping` and `number_subsets`. -/
def crmInit : MapState :=
  { available := true_sequence_1 ++ true_sequence_2, mapping := [], number_subsets := [] }

/-- `create_random_mapping` (utils.py): random mapping from lettercodes to 0-7
such that consecutive slots within each scrambled sequence alternate between
the two true sequences.  The draw stream `draws` supplies the random choices. -/
def create_random_mapping (draws : Nat → Nat) : Option Rule :=
  ((List.range 8).foldlM (crmStep draws) crmInit).map MapState.mapping

/-! ### Invariant machinery for `create_random_mapping` -/

/-- The opposite subset tag. -/
def altSeq (s : String) : String := if s = "seq1" then "seq2" else "seq1"

/-- Alternating list of subset tags of length `n` starting at `s`. -/
def altList : String → Nat → List String
  | _, 0 => []
  | s, n + 1 => s :: altList (altSeq s) n

/-- The subset tags that a partial mapping of length `k` can exhibit:
slots 0-3 alternate, slots 4-7 alternate, the 3-4 boundary is free. -/
def allowedPats (k : Nat) : List (List String) :=
  if k ≤ 4 then [altList "seq1" k, altList "seq2" k]
  else [altList "seq1" 4 ++ altList "seq1" (k - 4), altList "seq1" 4 ++ altList "seq2" (k - 4),
        altList "seq2" 4 ++ altList "seq1" (k - 4), altList "seq2" 4 ++ altList "seq2" (k - 4)]

/-- Subset tags of the codes of a partial mapping, in slot order. -/
def seqPattern (m : Rule) : List String := m.map (fun p => subset_of p.1)


/-- Loop invariant of `create_random_mapping` after the iterations
`num = 0, …, k-1` have completed. -/
structure CrmInv (k : Nat) (st : MapState) : Prop where
  snd_range : st.mapping.map Prod.snd = List.range k
  keys_nodup : (st.mapping.map Prod.fst).Nodup
  avail_nodup : st.available.Nodup
  avail_compl : ∀ c : St, c ∈ st.available ↔ c ∉ st.mapping.map Prod.fst
  subsets_eq : st.number_subsets = st.mapping.map (fun p => (p.2, subset_of p.1))
  pat_allowed : seqPattern st.mapping ∈ allowedPats k

lemma subset_of_cases (c : St) : subset_of c = "seq1" ∨ subset_of c = "seq2" := by
  unfold subset_of; split <;> simp

lemma choice_mem (d : Nat) (l : List St) (hl : l ≠ []) :
    ∃ c, choice d l = some c ∧ c ∈ l := by
  have hlen : 0 < l.length := List.length_pos.mpr hl
  have hlt : d % l.length < l.length := Nat.mod_lt _ hlen
  exact ⟨l.get ⟨d % l.length, hlt⟩, List.get?_eq_get hlt, l.get_mem _ _⟩

/-- Association-list lookup finds the `j`-th entry when the keys are distinct. -/
lemma lookup_of_get? {α β : Type} [BEq α] [LawfulBEq α] :
    ∀ (l : List (α × β)) (j : Nat) (a : α) (b : β),
      (l.map Prod.fst).Nodup → l.get? j = some (a, b) → l.lookup a = some b := by
  intro l
  induction l with
  | nil => intro j a b _ h; simp at h
  | cons p t ih =>
    intro j a b hnd hget
    simp only [List.map_cons, List.nodup_cons] at hnd
    cases j with
    | zero =>
      simp only [List.get?_cons_zero, Option.some.injEq] at hget
      subst hget
      simp [List.lookup]
    | succ n =>
      simp only [List.get?_cons_succ] at hget
      have hamem : a ∈ t.map Prod.fst :=
        List.mem_map.mpr ⟨(a, b), List.get?_mem hget, rfl⟩
      have hne : p.1 ≠ a := fun h => hnd.1 (h ▸ hamem)
      have hbeq : (a == p.1) = false := by
        simp only [beq_eq_false_iff_ne]
        exact fun h => hne h.symm
      cases p with
      | mk k v => simp only [List.lookup]; rw [hbeq]; exact ih n a b hnd.2 hget

/-- Pigeonhole: if fewer than `target.length` keys satisfy `p`, some element
of `target` (all of whose elements satisfy `p`) is not a key. -/
lemma exists_not_mem_of_filter_lt (keys target : List St) (p : St → Bool)
    (htnd : target.Nodup) (hp : ∀ c ∈ target, p c = true)
    (hlt : (keys.filter p).length < target.length) :
    ∃ c ∈ target, c ∉ keys := by
  by_contra h
  push_neg at h
  have hsub : ∀ c ∈ target, c ∈ keys.filter p :=
    fun c hc => List.mem_filter.mpr ⟨h c hc, hp c hc⟩
  have h1 : target.toFinset.card = target.length := List.toFinset_card_of_nodup htnd
  have h2 : target.toFinset ⊆ (keys.filter p).toFinset := by
    intro x hx
    exact List.mem_toFinset.mpr (hsub x (List.mem_toFinset.mp hx))
  have h3 := Finset.card_le_card h2
  have h4 : (keys.filter p).toFinset.card ≤ (keys.filter p).length :=
    List.toFinset_card_le _
  omega

/-- All eight states occur among `8` distinct keys. -/
lemma mem_of_nodup_length_eq (keys : List St) (hnd : keys.Nodup) (hlen : keys.length = 8) :
    ∀ c : St, c ∈ keys := by
  have hcard : keys.toFinset.card = Fintype.card St := by
    rw [List.toFinset_card_of_nodup hnd, hlen]
    decide
  have huniv : keys.toFinset = Finset.univ := keys.toFinset.eq_univ_of_card hcard
  intro c
  exact List.mem_toFinset.mp (huniv ▸ Finset.mem_univ c)

/-- Counting subset tags equals counting list membership in the true sequences. -/
lemma count_subset_of (keys : List St) (s : String) :
    (keys.filter (fun c => subset_of c == s)).length = (keys.map subset_of).count s := by
  rw [List.count, List.countP_map, List.countP_eq_length_filter]
  rfl

lemma contains_eq_subset_of : ∀ c : St,
    true_sequence_2.contains c = (subset_of c == "seq2") ∧
    true_sequence_1.contains c = (subset_of c == "seq1") := by
  decide

lemma filter_contains_eq (keys : List St) :
    keys.filter (fun c => true_sequence_2.contains c)
      = keys.filter (fun c => subset_of c == "seq2") ∧
    keys.filter (fun c => true_sequence_1.contains c)
      = keys.filter (fun c => subset_of c == "seq1") :=
  ⟨List.filter_congr (fun c _ => (contains_eq_subset_of c).1),
   List.filter_congr (fun c _ => (contains_eq_subset_of c).2)⟩

/-- The table facts about `allowedPats`, established by enumeration. -/
lemma allowedPats_ext_free : ∀ sp ∈ ["seq1", "seq2"],
    (∀ pt ∈ allowedPats 0, pt ++ [sp] ∈ allowedPats 1) ∧
    (∀ pt ∈ allowedPats 4, pt ++ [sp] ∈ allowedPats 5) := by
  decide

lemma allowedPats_count : ∀ k, k < 8 → k ≠ 0 → k ≠ 4 → ∀ pt ∈ allowedPats k,
    ∀ sp ∈ ["seq1", "seq2"], pt.get? (k - 1) = some sp → pt.count (altSeq sp) < 4 := by
  decide

lemma allowedPats_ext : ∀ k, k < 8 → k ≠ 0 → k ≠ 4 → ∀ pt ∈ allowedPats k,
    ∀ sp ∈ ["seq1", "seq2"], pt.get? (k - 1) = some sp →
      (pt ++ [altSeq sp]) ∈ allowedPats (k + 1) := by
  decide

lemma allowedPats_alt : ∀ pt ∈ allowedPats 8, ∀ i, i < 7 → i ≠ 3 →
    pt.get? i ≠ pt.get? (i + 1) := by
  decide

lemma CrmInv.mapping_length {k : Nat} {st : MapState} (h : CrmInv k st) :
    st.mapping.length = k := by
  have := congrArg List.length h.snd_range
  simpa using this

lemma CrmInv.get_last {k : Nat} {st : MapState} (h : CrmInv k st) (hk : k ≠ 0) :
    ∃ plast : St × Nat, st.mapping.get? (k - 1) = some plast ∧ plast.2 = k - 1 := by
  have h1 : (st.mapping.map Prod.snd).get? (k - 1) = some (k - 1) := by
    rw [h.snd_range]
    exact List.get?_range (by omega)
  rw [List.get?_map] at h1
  obtain ⟨p, hp, hp2⟩ := Option.map_eq_some'.mp h1
  exact ⟨p, hp, hp2⟩

lemma pat_get {m : Rule} {j : Nat} {p : St × Nat} (hp : m.get? j = some p) :
    (seqPattern m).get? j = some (subset_of p.1) := by
  unfold seqPattern
  rw [List.get?_map, hp]
  rfl

lemma CrmInv.lookup_prev {k : Nat} {st : MapState} (h : CrmInv k st) (hk : k ≠ 0) :
    ∃ plast : St × Nat, st.mapping.get? (k - 1) = some plast ∧ plast.2 = k - 1 ∧
      st.number_subsets.lookup (k - 1) = some (subset_of plast.1) := by
  obtain ⟨p, hp, hp2⟩ := h.get_last hk
  refine ⟨p, hp, hp2, ?_⟩
  have hkeys : st.number_subsets.map Prod.fst = st.mapping.map Prod.snd := by
    rw [h.subsets_eq, List.map_map]
    rfl
  have hnd : (st.number_subsets.map Prod.fst).Nodup := by
    rw [hkeys, h.snd_range]
    exact List.nodup_range k
  have hget : st.number_subsets.get? (k - 1) = some (k - 1, subset_of p.1) := by
    rw [h.subsets_eq, List.get?_map, hp]
    simp [hp2]
  exact lookup_of_get? _ (k - 1) _ _ hnd hget

/-- Extending the invariant by one chosen available code. -/
lemma CrmInv.extend {k : Nat} {st : MapState} (hInv : CrmInv k st) {c : St}
    (hc : c ∈ st.available)
    (hpat : seqPattern st.mapping ++ [subset_of c] ∈ allowedPats (k + 1)) :
    CrmInv (k + 1)
      { available := st.available.erase c
        mapping := st.mapping ++ [(c, k)]
        number_subsets := st.number_subsets ++ [(k, subset_of c)] } := by
  have hcnotin : c ∉ st.mapping.map Prod.fst := (hInv.avail_compl c).mp hc
  constructor
  · simp [List.map_append, hInv.snd_range, List.range_succ]
  · simp only [List.map_append, List.map_cons, List.map_nil]
    rw [List.nodup_append_comm, List.singleton_append]
    exact List.nodup_cons.mpr ⟨hcnotin, hInv.keys_nodup⟩
  · exact hInv.avail_nodup.erase c
  · intro x
    rw [hInv.avail_nodup.mem_erase_iff, hInv.avail_compl x]
    simp only [List.map_append, List.map_cons, List.map_nil, List.mem_append,
      List.mem_singleton]
    tauto
  · simp [hInv.subsets_eq, List.map_append]
  · have hps : seqPattern (st.mapping ++ [(c, k)]) = seqPattern st.mapping ++ [subset_of c] := by
      simp [seqPattern, List.map_append]
    exact hps ▸ hpat

lemma contains_of_mem2 : ∀ c ∈ true_sequence_2, true_sequence_2.contains c = true := by
  decide

lemma contains_of_mem1 : ∀ c ∈ true_sequence_1, true_sequence_1.contains c = true := by
  decide

/-- A constrained iteration (`num ∉ {0, 4}`) always succeeds and preserves the
invariant. -/
lemma crmStep_constrained (draws : Nat → Nat) (k : Nat) (st : MapState)
    (hInv : CrmInv k st) (hk0 : k ≠ 0) (hk4 : k ≠ 4) (hk8 : k < 8) :
    ∃ st', crmStep draws st k = some st' ∧ CrmInv (k + 1) st' := by
  obtain ⟨plast, hplast, hplast2, hlook⟩ := hInv.lookup_prev hk0
  have hpatlast : (seqPattern st.mapping).get? (k - 1) = some (subset_of plast.1) :=
    pat_get hplast
  have hseqmm : (st.mapping.map Prod.fst).map subset_of = seqPattern st.mapping := by
    rw [List.map_map]
    rfl
  rcases subset_of_cases plast.1 with hs | hs
  · -- previous subset is seq1: draw from true_sequence_2
    have hspmem : subset_of plast.1 ∈ ["seq1", "seq2"] := by rw [hs]; simp
    have hcount := allowedPats_count k hk8 hk0 hk4 _ hInv.pat_allowed _ hspmem hpatlast
    have halt : altSeq (subset_of plast.1) = "seq2" := by rw [hs]; rfl
    rw [halt] at hcount
    have hflt : ((st.mapping.map Prod.fst).filter
        (fun c => true_sequence_2.contains c)).length < 4 := by
      rw [(filter_contains_eq _).1, count_subset_of, hseqmm]
      exact hcount
    obtain ⟨c0, hc0t, hc0notk⟩ := exists_not_mem_of_filter_lt (st.mapping.map Prod.fst)
      true_sequence_2 (fun c => true_sequence_2.contains c) (by decide) contains_of_mem2 hflt
    have hc0avail : c0 ∈ st.available := (hInv.avail_compl c0).mpr hc0notk
    have hvalid_ne : st.available.filter (fun code => true_sequence_2.contains code) ≠ [] := by
      intro hnil
      have hmem : c0 ∈ st.available.filter (fun code => true_sequence_2.contains code) :=
        List.mem_filter.mpr ⟨hc0avail, contains_of_mem2 c0 hc0t⟩
      rw [hnil] at hmem
      exact absurd hmem (List.not_mem_nil c0)
    obtain ⟨c, hceq, hcmem⟩ := choice_mem (draws k) _ hvalid_ne
    obtain ⟨hcavail, hcts⟩ := List.mem_filter.mp hcmem
    have hsubc : subset_of c = "seq2" :=
      eq_of_beq ((contains_eq_subset_of c).1 ▸ hcts)
    have hstep : crmStep draws st k = some
        { available := st.available.erase c
          mapping := st.mapping ++ [(c, k)]
          number_subsets := st.number_subsets ++ [(k, subset_of c)] } := by
      unfold crmStep
      rw [if_neg hk0, if_neg hk4, hlook, hs]
      show ((match choice (draws k)
          (st.available.filter (fun code => true_sequence_2.contains code)) with
        | none => none
        | some chosen_code =>
          some { available := st.available.erase chosen_code
                 mapping := st.mapping ++ [(chosen_code, k)]
                 number_subsets := st.number_subsets ++ [(k, subset_of chosen_code)] }) :
        Option MapState) =
        some { available := st.available.erase c
               mapping := st.mapping ++ [(c, k)]
               number_subsets := st.number_subsets ++ [(k, subset_of c)] }
      rw [hceq]
    refine ⟨_, hstep, hInv.extend hcavail ?_⟩
    have hext := allowedPats_ext k hk8 hk0 hk4 _ hInv.pat_allowed _ hspmem hpatlast
    rw [halt] at hext
    rw [hsubc]
    exact hext
  · -- previous subset is seq2: draw from true_sequence_1
    have hspmem : subset_of plast.1 ∈ ["seq1", "seq2"] := by rw [hs]; simp
    have hcount := allowedPats_count k hk8 hk0 hk4 _ hInv.pat_allowed _ hspmem hpatlast
    have halt : altSeq (subset_of plast.1) = "seq1" := by rw [hs]; rfl
    rw [halt] at hcount
    have hflt : ((st.mapping.map Prod.fst).filter
        (fun c => true_sequence_1.contains c)).length < 4 := by
      rw [(filter_contains_eq _).2, count_subset_of, hseqmm]
      exact hcount
    obtain ⟨c0, hc0t, hc0notk⟩ := exists_not_mem_of_filter_lt (st.mapping.map Prod.fst)
      true_sequence_1 (fun c => true_sequence_1.contains c) (by decide) contains_of_mem1 hflt
    have hc0avail : c0 ∈ st.available := (hInv.avail_compl c0).mpr hc0notk
    have hvalid_ne : st.available.filter (fun code => true_sequence_1.contains code) ≠ [] := by
      intro hnil
      have hmem : c0 ∈ st.available.filter (fun code => true_sequence_1.contains code) :=
        List.mem_filter.mpr ⟨hc0avail, contains_of_mem1 c0 hc0t⟩
      rw [hnil] at hmem
      exact absurd hmem (List.not_mem_nil c0)
    obtain ⟨c, hceq, hcmem⟩ := choice_mem (draws k) _ hvalid_ne
    obtain ⟨hcavail, hcts⟩ := List.mem_filter.mp hcmem
    have hsubc : subset_of c = "seq1" :=
      eq_of_beq ((contains_eq_subset_of c).2 ▸ hcts)
    have hstep : crmStep draws st k = some
        { available := st.available.erase c
          mapping := st.mapping ++ [(c, k)]
          number_subsets := st.number_subsets ++ [(k, subset_of c)] } := by
      unfold crmStep
      rw [if_neg hk0, if_neg hk4, hlook, hs]
      show ((match choice (draws k)
          (st.available.filter (fun code => true_sequence_1.contains code)) with
        | none => none
        | some chosen_code =>
          some { available := st.available.erase chosen_code
                 mapping := st.mapping ++ [(chosen_code, k)]
                 number_subsets := st.number_subsets ++ [(k, subset_of chosen_code)] }) :
        Option MapState) =
        some { available := st.available.erase c
               mapping := st.mapping ++ [(c, k)]
               number_subsets := st.number_subsets ++ [(k, subset_of c)] }
      rw [hceq]
    refine ⟨_, hstep, hInv.extend hcavail ?_⟩
    have hext := allowedPats_ext k hk8 hk0 hk4 _ hInv.pat_allowed _ hspmem hpatlast
    rw [halt] at hext
    rw [hsubc]
    exact hext

/-- An unconstrained iteration (`num ∈ {0, 4}`) always succeeds and preserves
the invariant. -/
lemma crmStep_free (draws : Nat → Nat) (k : Nat) (st : MapState)
    (hInv : CrmInv k st) (hk : k = 0 ∨ k = 4) :
    ∃ st', crmStep draws st k = some st' ∧ CrmInv (k + 1) st' := by
  have hklen : st.mapping.length = k := hInv.mapping_length
  have hflt : ((st.mapping.map Prod.fst).filter (fun _ => true)).length
      < true_state_names.length := by
    rw [List.filter_true, List.length_map, hklen]
    rcases hk with h | h <;> simp [h, true_state_names]
  obtain ⟨c0, hc0t, hc0notk⟩ := exists_not_mem_of_filter_lt (st.mapping.map Prod.fst)
    true_state_names (fun _ => true) (by decide) (fun _ _ => rfl) hflt
  have hc0avail : c0 ∈ st.available := (hInv.avail_compl c0).mpr hc0notk
  have hane : st.available ≠ [] := by
    intro hnil
    rw [hnil] at hc0avail
    exact absurd hc0avail (List.not_mem_nil c0)
  obtain ⟨c, hceq, hcavail⟩ := choice_mem (draws k) _ hane
  have hstep : crmStep draws st k = some
      { available := st.available.erase c
        mapping := st.mapping ++ [(c, k)]
        number_subsets := st.number_subsets ++ [(k, subset_of c)] } := by
    rcases hk with h | h <;> subst h <;> unfold crmStep <;> simp [hceq]
  refine ⟨_, hstep, hInv.extend hcavail ?_⟩
  have hspmem : subset_of c ∈ ["seq1", "seq2"] := by
    rcases subset_of_cases c with h | h <;> rw [h] <;> simp
  have hext := allowedPats_ext_free _ hspmem
  rcases hk with h | h <;> subst h
  · exact hext.1 _ hInv.pat_allowed
  · exact hext.2 _ hInv.pat_allowed

lemma crmInv_zero : CrmInv 0 crmInit := by
  refine ⟨?_, ?_, ?_, ?_, ?_, ?_⟩ <;> decide

/-- Main induction: the generation loop always completes with the invariant
established for all eight slots. -/
lemma crm_inv (draws : Nat → Nat) :
    ∃ st, (List.range 8).foldlM (crmStep draws) crmInit = some st ∧ CrmInv 8 st := by
  obtain ⟨s1, e1, h1⟩ := crmStep_free draws 0 crmInit crmInv_zero (Or.inl rfl)
  obtain ⟨s2, e2, h2⟩ := crmStep_constrained draws 1 s1 h1 (by omega) (by omega) (by omega)
  obtain ⟨s3, e3, h3⟩ := crmStep_constrained draws 2 s2 h2 (by omega) (by omega) (by omega)
  obtain ⟨s4, e4, h4⟩ := crmStep_constrained draws 3 s3 h3 (by omega) (by omega) (by omega)
  obtain ⟨s5, e5, h5⟩ := crmStep_free draws 4 s4 h4 (Or.inr rfl)
  obtain ⟨s6, e6, h6⟩ := crmStep_constrained draws 5 s5 h5 (by omega) (by omega) (by omega)
  obtain ⟨s7, e7, h7⟩ := crmStep_constrained draws 6 s6 h6 (by omega) (by omega) (by omega)
  obtain ⟨s8, e8, h8⟩ := crmStep_constrained draws 7 s7 h7 (by omega) (by omega) (by omega)
  refine ⟨s8, ?_, h8⟩
  show List.foldlM (crmStep draws) crmInit [0, 1, 2, 3, 4, 5, 6, 7] = some s8
  simp [List.foldlM_cons, List.foldlM_nil, e1, e2, e3, e4, e5, e6, e7, e8]

/-- Summary of the generation loop: it always succeeds, and the resulting
mapping has values `0..7` in slot order, distinct keys covering all eight
states, and an allowed alternation pattern. -/
lemma create_random_mapping_spec (draws : Nat → Nat) :
    ∃ m, create_random_mapping draws = some m ∧
      m.map Prod.snd = List.range 8 ∧
      (m.map Prod.fst).Nodup ∧
      (∀ s : St, s ∈ m.map Prod.fst) ∧
      seqPattern m ∈ allowedPats 8 := by
  obtain ⟨st, hfold, hInv⟩ := crm_inv draws
  refine ⟨st.mapping, ?_, hInv.snd_range, hInv.keys_nodup, ?_, hInv.pat_allowed⟩
  · unfold create_random_mapping
    rw [hfold]
    rfl
  · apply mem_of_nodup_length_eq _ hInv.keys_nodup
    rw [List.length_map, hInv.mapping_length]

/-- C1: for every sequence of random draws, the mapping returned by
`create_random_mapping` is a bijection from the eight true-state names onto
the slot indices 0 through 7: its keys are exactly `{W, X, Y, Z, Wp, Xp, Yp,
Zp}`, its values are exactly `{0, …, 7}` (in fact the list `0, …, 7` in slot
order), and no two states share a slot. -/
theorem create_random_mapping_bijection (draws : Nat → Nat) (m : Rule)
    (h : create_random_mapping draws = some m) :
    (∀ s : St, s ∈ m.map Prod.fst) ∧ (m.map Prod.fst).Nodup ∧
    m.map Prod.snd = List.range 8 ∧ (m.map Prod.snd).Nodup := by
  obtain ⟨m', hm', h1, h2, h3, _⟩ := create_random_mapping_spec draws
  have hmm : m = m' := by
    have := h.symm.trans hm'
    exact Option.some.injEq _ _ ▸ this
  subst hmm
  exact ⟨h3, h2, h1, h1 ▸ List.nodup_range 8⟩

theorem create_random_mapping_bijection_witness :
    (∀ s : St, s ∈ ([(.W, 0), (.Wp, 1), (.X, 2), (.Xp, 3), (.Y, 4), (.Yp, 5), (.Z, 6),
        (.Zp, 7)] : Rule).map Prod.fst) ∧
    (([(.W, 0), (.Wp, 1), (.X, 2), (.Xp, 3), (.Y, 4), (.Yp, 5), (.Z, 6),
        (.Zp, 7)] : Rule).map Prod.fst).Nodup ∧
    ([(.W, 0), (.Wp, 1), (.X, 2), (.Xp, 3), (.Y, 4), (.Yp, 5), (.Z, 6),
        (.Zp, 7)] : Rule).map Prod.snd = List.range 8 ∧
    (([(.W, 0), (.Wp, 1), (.X, 2), (.Xp, 3), (.Y, 4), (.Yp, 5), (.Z, 6),
        (.Zp, 7)] : Rule).map Prod.snd).Nodup :=
  create_random_mapping_bijection (fun _ => 0) _ (by decide)

/-- C9: for every sequence of random draws the generator completes normally:
every candidate list handed to `random.choice` is non-empty, so
`create_random_mapping` returns a mapping with all eight slots assigned. -/
theorem create_random_mapping_total (draws : Nat → Nat) :
    ∃ m, create_random_mapping draws = some m ∧ m.length = 8 := by
  obtain ⟨m, hm, hsnd, _, _, _⟩ := create_random_mapping_spec draws
  refine ⟨m, hm, ?_⟩
  have := congrArg List.length hsnd
  simpa using this

/-- C2 (amended): consecutive slots alternate between the two true sequences
at every boundary except the one between slot 3 and slot 4 (the code imposes
no constraint there).  For `i < 7`, `i ≠ 3`, the states of slots `i` and
`i + 1` lie in different true sequences. -/
theorem create_random_mapping_alternation (draws : Nat → Nat) (m : Rule)
    (h : create_random_mapping draws = some m) (i : Nat) (hi : i < 7) (hne : i ≠ 3) :
    ∃ p q, m.get? i = some p ∧ m.get? (i + 1) = some q ∧
      subset_of p.1 ≠ subset_of q.1 := by
  obtain ⟨m', hm', hsnd, _, _, hpat⟩ := create_random_mapping_spec draws
  have hmm : m = m' := by
    have := h.symm.trans hm'
    exact Option.some.injEq _ _ ▸ this
  subst hmm
  have hlen : m.length = 8 := by
    have := congrArg List.length hsnd
    simpa using this
  obtain ⟨p, hp⟩ : ∃ p, m.get? i = some p :=
    ⟨m.get ⟨i, by omega⟩, List.get?_eq_get (by omega)⟩
  obtain ⟨q, hq⟩ : ∃ q, m.get? (i + 1) = some q :=
    ⟨m.get ⟨i + 1, by omega⟩, List.get?_eq_get (by omega)⟩
  refine ⟨p, q, hp, hq, ?_⟩
  have halt := allowedPats_alt _ hpat i hi hne
  rw [pat_get hp, pat_get hq] at halt
  intro hc
  exact halt (by rw [hc])

/-- The draw stream exhibiting the missing constraint at the 3-4 boundary. -/
def crmBoundaryDraws : Nat → Nat := fun n => if n = 4 then 2 else 0

/-- The mapping generated from `crmBoundaryDraws`. -/
def crmBoundaryMapping : Rule :=
  [(.W, 0), (.Wp, 1), (.X, 2), (.Xp, 3), (.Yp, 4), (.Y, 5), (.Zp, 6), (.Z, 7)]

/-- C2 (counterexample to the claim as stated): for this draw stream the
states of the consecutive slots 3 and 4 (`Xp` and `Yp`) belong to the *same*
true sequence, so the alternation property fails at `i = 3`. -/
theorem create_random_mapping_boundary_counterexample :
    create_random_mapping crmBoundaryDraws = some crmBoundaryMapping ∧
    crmBoundaryMapping.get? 3 = some (St.Xp, 3) ∧
    crmBoundaryMapping.get? 4 = some (St.Yp, 4) ∧
    subset_of St.Xp = subset_of St.Yp :=
  ⟨by decide, by decide, by decide, by decide⟩

theorem create_random_mapping_alternation_witness :
    ∃ p q, ([(.W, 0), (.Wp, 1), (.X, 2), (.Xp, 3), (.Y, 4), (.Yp, 5), (.Z, 6),
        (.Zp, 7)] : Rule).get? 0 = some p ∧
      ([(.W, 0), (.Wp, 1), (.X, 2), (.Xp, 3), (.Y, 4), (.Yp, 5), (.Z, 6),
        (.Zp, 7)] : Rule).get? 1 = some q ∧
      subset_of p.1 ≠ subset_of q.1 :=
  create_random_mapping_alternation (fun _ => 0) _ (by decide) 0 (by omega) (by omega)

/-! ### The adaptive training loop (training.py, `Training.run`) -/

/-- The two kinds of quiz questions asked inside the adaptive loop. -/
inductive QuizKind where
  | seq
  | order
deriving DecidableEq, Repr

/-- Randomness and participant behaviour consumed by one loop iteration:
the draw for `random.choice(states_at_level(...))`, the draw for
`random.choice(states_in_same_seq)`, and the correctness of the participant's
answers to the two quizzes. -/
structure QuizOutcome where
  d1 : Nat
  d2 : Nat
  ans1 : Bool
  ans2 : Bool

/-- `learning_levels = {state: 0 for state in true_state_names}` (training.py). -/
def initial_levels : St → Int := fun _ => 0

/-- Functional update of one state's learning level (`learning_levels[s] = v`). -/
def updateLevel (lv : St → Int) (s : St) (v : Int) : St → Int :=
  fun t => if t = s then v else lv t

/-- `states_at_level` (training.py): state names currently at `level`,
in dict (= insertion) order. -/
def states_at_level (lv : St → Int) (level : Int) : List St :=
  true_state_names.filter (fun s => lv s == level)

/-- `states_above_level` (training.py): state names currently above `level`. -/
def states_above_level (lv : St → Int) (level : Int) : List St :=
  true_state_names.filter (fun s => decide (lv s > level))

/-- `min(learning_levels.values())` (training.py); the dict always has the
eight states as keys, so the minimum exists and the default is never used. -/
def minLevel (lv : St → Int) : Int :=
  ((true_state_names.map lv).min?).getD 0

/-- `states_in_same_seq` (training.py line 404): states above level 0 in the
same true sequence as `true_state`, excluding `true_state` itself. -/
def orderQuizCandidates (lv : St → Int) (true_state : St) : List St :=
  (states_above_level lv 0).filter
    (fun s => decide ((get_pos_and_seq true_state).2 = (get_pos_and_seq s).2) &&
      decide (s ≠ true_state))

/-- Level updates at the end of one loop iteration (training.py lines 410-417):
promote on a double-correct, otherwise demote the quizzed state(s), never
below level 1. -/
def applyQuizResults (lv : St → Int) (true_state : St) (true_state_2 : Option St)
    (quiz_result quiz_result_2 : Bool) : St → Int :=
  if quiz_result && quiz_result_2 then
    updateLevel lv true_state (lv true_state + 1)
  else
    let lv1 := if lv true_state > 1 then updateLevel lv true_state (lv true_state - 1) else lv
    match true_state_2 with
    | some t2 => if lv1 t2 > 1 then updateLevel lv1 t2 (lv1 t2 - 1) else lv1
    | none => lv1

/-- One iteration of the adaptive while-loop (training.py lines 386-420):
pick a least-learned state, run the sequence quiz, run the order quiz when a
reference state above level 0 exists in the same true sequence, and update
the levels.  Returns the new levels and the list of quizzes asked. -/
def trainingStep (o : QuizOutcome) (lv : St → Int) :
    Option ((St → Int) × List QuizKind) :=
  match choice o.d1 (states_at_level lv (minLevel lv)) with
  | none => none
  | some true_state =>
    match orderQuizCandidates lv true_state with
    | [] =>
      -- no order quiz; quiz_result_2 stays 'correct'
      some (applyQuizResults lv true_state none o.ans1 true, [QuizKind.seq])
    | c :: cs =>
      match choice o.d2 (c :: cs) with
      | none => none
      | some true_state_2 =>
        some (applyQuizResults lv true_state (some true_state_2) o.ans1 o.ans2,
          [QuizKind.seq, QuizKind.order])

/-- The adaptive while-loop after `n` tests of its guard
`min(learning_levels.values()) < 3`, starting from all-zero levels. -/
def training_run (outs : Nat → QuizOutcome) : Nat → Option (St → Int)
  | 0 => some initial_levels
  | n + 1 =>
    match training_run outs n with
    | none => none
    | some lv => if minLevel lv < 3 then (trainingStep (outs n) lv).map Prod.fst else some lv

lemma minLevel_eq (lv : St → Int) :
    minLevel lv = [lv .X, lv .Y, lv .Z, lv .Wp, lv .Xp, lv .Yp, lv .Zp].foldl min (lv .W) :=
  rfl

lemma foldl_min_le_init : ∀ (l : List Int) (a : Int), l.foldl min a ≤ a := by
  intro l
  induction l with
  | nil => intro a; exact le_refl a
  | cons b t ih => intro a; exact le_trans (ih (min a b)) (min_le_left a b)

lemma foldl_min_le_mem : ∀ (l : List Int) (a x : Int), x ∈ l → l.foldl min a ≤ x := by
  intro l
  induction l with
  | nil => intro a x hx; exact absurd hx (List.not_mem_nil x)
  | cons b t ih =>
    intro a x hx
    rcases List.mem_cons.mp hx with rfl | hx
    · exact le_trans (foldl_min_le_init t (min a x)) (min_le_right a x)
    · exact ih (min a b) x hx

lemma foldl_min_attained : ∀ (l : List Int) (a : Int),
    l.foldl min a = a ∨ l.foldl min a ∈ l := by
  intro l
  induction l with
  | nil => intro a; exact Or.inl rfl
  | cons b t ih =>
    intro a
    rcases ih (min a b) with h | h
    · rcases min_choice a b with hm | hm
      · exact Or.inl (h.trans hm)
      · exact Or.inr (List.mem_cons.mpr (Or.inl (h.trans hm)))
    · exact Or.inr (List.mem_cons.mpr (Or.inr h))

lemma minLevel_le (lv : St → Int) : ∀ s, minLevel lv ≤ lv s := by
  intro s
  rw [minLevel_eq]
  cases s <;>
    first
      | exact foldl_min_le_init _ _
      | exact foldl_min_le_mem _ _ _ (by simp)

lemma minLevel_attained (lv : St → Int) : ∃ s, lv s = minLevel lv := by
  rw [minLevel_eq]
  rcases foldl_min_attained [lv .X, lv .Y, lv .Z, lv .Wp, lv .Xp, lv .Yp, lv .Zp] (lv .W)
    with h | h
  · exact ⟨.W, h.symm⟩
  · simp only [List.mem_cons, List.not_mem_nil, or_false] at h
    rcases h with h | h | h | h | h | h | h
    exacts [⟨.X, h.symm⟩, ⟨.Y, h.symm⟩, ⟨.Z, h.symm⟩, ⟨.Wp, h.symm⟩, ⟨.Xp, h.symm⟩,
      ⟨.Yp, h.symm⟩, ⟨.Zp, h.symm⟩]

lemma mem_true_state_names : ∀ s : St, s ∈ true_state_names := by
  decide

lemma states_at_min_ne (lv : St → Int) : states_at_level lv (minLevel lv) ≠ [] := by
  obtain ⟨s, hs⟩ := minLevel_attained lv
  intro hnil
  have hmem : s ∈ states_at_level lv (minLevel lv) :=
    List.mem_filter.mpr ⟨mem_true_state_names s, beq_iff_eq.mpr hs⟩
  rw [hnil] at hmem
  exact absurd hmem (List.not_mem_nil s)

lemma updateLevel_apply (lv : St → Int) (a : St) (v : Int) (s : St) :
    updateLevel lv a v s = if s = a then v else lv s := rfl

/-- One guarded iteration succeeds and keeps every level within `[0, 3]`. -/
lemma trainingStep_some (o : QuizOutcome) (lv : St → Int)
    (hbound : ∀ s, 0 ≤ lv s ∧ lv s ≤ 3) (hguard : minLevel lv < 3) :
    ∃ r, trainingStep o lv = some r ∧ ∀ s, 0 ≤ r.1 s ∧ r.1 s ≤ 3 := by
  obtain ⟨ts, hts_eq, hts_mem⟩ := choice_mem o.d1 _ (states_at_min_ne lv)
  have hts_lvl : lv ts = minLevel lv := eq_of_beq (List.mem_filter.mp hts_mem).2
  have hts_le : lv ts ≤ 2 := by omega
  have happ : ∀ (ts2 : Option St) (a1 a2 : Bool) (s : St),
      0 ≤ applyQuizResults lv ts ts2 a1 a2 s ∧ applyQuizResults lv ts ts2 a1 a2 s ≤ 3 := by
    intro ts2 a1 a2 s
    have h1 := hbound s
    have h2 := hbound ts
    cases ts2 with
    | none =>
      unfold applyQuizResults
      simp only [updateLevel_apply, ite_apply]
      split_ifs <;> omega
    | some t2 =>
      have h3 := hbound t2
      unfold applyQuizResults
      simp only [updateLevel_apply, ite_apply]
      split_ifs <;> omega
  cases horder : orderQuizCandidates lv ts with
  | nil =>
    refine ⟨(applyQuizResults lv ts none o.ans1 true, [QuizKind.seq]), ?_,
      fun s => happ none o.ans1 true s⟩
    unfold trainingStep
    simp only [hts_eq, horder]
  | cons c cs =>
    obtain ⟨ts2, hts2_eq, _⟩ := choice_mem o.d2 (c :: cs) (by simp)
    refine ⟨(applyQuizResults lv ts (some ts2) o.ans1 o.ans2,
        [QuizKind.seq, QuizKind.order]), ?_,
      fun s => happ (some ts2) o.ans1 o.ans2 s⟩
    unfold trainingStep
    simp only [hts_eq, horder, hts2_eq]

/-- The loop state is always defined and all levels stay within `[0, 3]`. -/
lemma training_run_inv (outs : Nat → QuizOutcome) :
    ∀ n, ∃ lv, training_run outs n = some lv ∧ ∀ s, 0 ≤ lv s ∧ lv s ≤ 3 := by
  intro n
  induction n with
  | zero =>
    exact ⟨initial_levels, rfl, fun s => by constructor <;> norm_num [initial_levels]⟩
  | succ n ih =>
    obtain ⟨lv, hrun, hbound⟩ := ih
    by_cases hguard : minLevel lv < 3
    · obtain ⟨r, hstep, hbound'⟩ := trainingStep_some (outs n) lv hbound hguard
      refine ⟨r.1, ?_, hbound'⟩
      show training_run outs (n + 1) = some r.1
      simp [training_run, hrun, hguard, hstep]
    · refine ⟨lv, ?_, hbound⟩
      show training_run outs (n + 1) = some lv
      simp [training_run, hrun, hguard]

/-- C3: for every sequence of quiz outcomes the adaptive loop's state is
always defined; its guard `min(learning_levels.values()) < 3` holds exactly
when some state's learning level is below 3 (so the body repeats iff some
state is under-trained), and whenever the guard fails (the loop exits), every
one of the eight states has learning level exactly 3. -/
theorem training_run_terminates_at_three (outs : Nat → QuizOutcome) (n : Nat) :
    ∃ lv, training_run outs n = some lv ∧
      ((minLevel lv < 3) ↔ (∃ s, lv s < 3)) ∧
      (¬ minLevel lv < 3 → ∀ s, lv s = 3) := by
  obtain ⟨lv, hrun, hbound⟩ := training_run_inv outs n
  refine ⟨lv, hrun, ?_, ?_⟩
  · constructor
    · intro hlt
      obtain ⟨s, hs⟩ := minLevel_attained lv
      exact ⟨s, by omega⟩
    · intro ⟨s, hs⟩
      have := minLevel_le lv s
      omega
  · intro hge s
    have h1 := minLevel_le lv s
    have h2 := (hbound s).2
    omega

/-- C4: throughout the adaptive loop, for every sequence of quiz outcomes and
after every iteration, each of the eight states' learning levels is an
integer between 0 and 3 inclusive. -/
theorem training_run_levels_bounded (outs : Nat → QuizOutcome) (n : Nat) :
    ∃ lv, training_run outs n = some lv ∧ ∀ s : St, 0 ≤ lv s ∧ lv s ≤ 3 :=
  training_run_inv outs n

/-- C6 (amended): every iteration of the adaptive loop asks the
sequence-membership quiz, and asks the pairwise-order quiz precisely when
another state of the same true sequence has learning level above 0. -/
theorem trainingStep_quizzes (o : QuizOutcome) (lv : St → Int)
    (r : (St → Int) × List QuizKind) (h : trainingStep o lv = some r) :
    ∃ ts, choice o.d1 (states_at_level lv (minLevel lv)) = some ts ∧
      ((orderQuizCandidates lv ts = [] ∧ r.2 = [QuizKind.seq]) ∨
       (orderQuizCandidates lv ts ≠ [] ∧ r.2 = [QuizKind.seq, QuizKind.order])) := by
  unfold trainingStep at h
  cases hch : choice o.d1 (states_at_level lv (minLevel lv)) with
  | none =>
    simp only [hch] at h
    exact Option.noConfusion h
  | some ts =>
    simp only [hch] at h
    refine ⟨ts, rfl, ?_⟩
    cases hord : orderQuizCandidates lv ts with
    | nil =>
      simp only [hord, Option.some.injEq] at h
      left
      exact ⟨rfl, by rw [← h]⟩
    | cons c cs =>
      simp only [hord] at h
      cases hch2 : choice o.d2 (c :: cs) with
      | none =>
        simp only [hch2] at h
        exact Option.noConfusion h
      | some ts2 =>
        simp only [hch2, Option.some.injEq] at h
        right
        exact ⟨by simp, by rw [← h]⟩

theorem trainingStep_quizzes_witness :
    ∃ ts, choice 0 (states_at_level initial_levels (minLevel initial_levels)) = some ts ∧
      ((orderQuizCandidates initial_levels ts = [] ∧
          ([QuizKind.seq] : List QuizKind) = [QuizKind.seq]) ∨
       (orderQuizCandidates initial_levels ts ≠ [] ∧
          ([QuizKind.seq] : List QuizKind) = [QuizKind.seq, QuizKind.order])) :=
  trainingStep_quizzes ⟨0, 0, true, true⟩ initial_levels
    (applyQuizResults initial_levels St.W none true true, [QuizKind.seq]) (by decide)

/-- C6 (counterexample to the claim as stated): at the very first iteration
of the loop (a reachable state with the guard true), no state is above level
0, so only the sequence quiz is asked — the iteration does not ask two quiz
questions. -/
theorem trainingStep_single_quiz_counterexample :
    training_run (fun _ => ⟨0, 0, true, true⟩) 0 = some initial_levels ∧
    minLevel initial_levels < 3 ∧
    (trainingStep ⟨0, 0, true, true⟩ initial_levels).map Prod.snd = some [QuizKind.seq] ∧
    some [QuizKind.seq] ≠ some [QuizKind.seq, QuizKind.order] :=
  ⟨rfl, by decide, by decide, by decide⟩

/-! ### Reverse lookup of the scrambling rule (training.py / structure_learning.py) -/

/-- `reverse_state_lookup` (training.py lines 123-126, identically
structure_learning.py lines 167-170): reverse dictionary lookup
`[key for key, value in self.scrambling_rule.items() if value ==
scrambled_position][0]`; indexing an empty list raises in Python, modelled by
`Option` via `head?`. -/
def reverse_state_lookup (scrambling_rule : Rule) (scrambled_position : Nat) : Option St :=
  ((scrambling_rule.filter (fun kv => kv.2 == scrambled_position)).map Prod.fst).head?

lemma lookup_of_mem_keys {rule : Rule} {s : St} :
    s ∈ rule.map Prod.fst → ∃ p, rule.lookup s = some p ∧ (s, p) ∈ rule := by
  induction rule with
  | nil => intro h; simp at h
  | cons kv t ih =>
    intro h
    by_cases hs : s = kv.1
    · obtain ⟨k, v⟩ := kv
      refine ⟨v, ?_, ?_⟩
      · simp only [List.lookup]
        rw [show (s == k) = true from beq_iff_eq.mpr hs]
      · exact List.mem_cons.mpr (Or.inl (by rw [hs]))
    · simp only [List.map_cons, List.mem_cons] at h
      rcases h with h | h
      · exact absurd h hs
      · obtain ⟨p, hp1, hp2⟩ := ih h
        refine ⟨p, ?_, List.mem_cons.mpr (Or.inr hp2)⟩
        obtain ⟨k, v⟩ := kv
        simp only [List.lookup]
        rw [show (s == k) = false from beq_eq_false_iff_ne.mpr hs]
        exact hp1

lemma lookup_eq_of_mem {rule : Rule} (hnd : (rule.map Prod.fst).Nodup) {s : St} {p : Nat}
    (hmem : (s, p) ∈ rule) : rule.lookup s = some p := by
  induction rule with
  | nil => simp at hmem
  | cons kv t ih =>
    simp only [List.map_cons, List.nodup_cons] at hnd
    rcases List.mem_cons.mp hmem with h | h
    · obtain ⟨k, v⟩ := kv
      obtain ⟨rfl, rfl⟩ := Prod.mk.injEq .. ▸ h
      simp [List.lookup]
    · have hsm : s ∈ t.map Prod.fst := List.mem_map.mpr ⟨(s, p), h, rfl⟩
      have hne : s ≠ kv.1 := fun he => hnd.1 (he ▸ hsm)
      obtain ⟨k, v⟩ := kv
      simp only [List.lookup]
      rw [show (s == k) = false from beq_eq_false_iff_ne.mpr hne]
      exact ih hnd.2 h

lemma filter_eq_of_snd_nodup {rule : Rule} (hnd : (rule.map Prod.snd).Nodup) {s : St} {p : Nat}
    (hmem : (s, p) ∈ rule) : rule.filter (fun kv => kv.2 == p) = [(s, p)] := by
  induction rule with
  | nil => simp at hmem
  | cons kv t ih =>
    simp only [List.map_cons, List.nodup_cons] at hnd
    rcases List.mem_cons.mp hmem with h | h
    · obtain ⟨k, v⟩ := kv
      obtain ⟨rfl, rfl⟩ := Prod.mk.injEq .. ▸ h
      have hnil : t.filter (fun kv => kv.2 == p) = [] := by
        apply List.filter_eq_nil.mpr
        intro kv' hkv'
        intro hbe
        exact hnd.1 ((eq_of_beq hbe) ▸ List.mem_map.mpr ⟨kv', hkv', rfl⟩)
      simp [List.filter_cons, hnil]
    · have hpm : p ∈ t.map Prod.snd := List.mem_map.mpr ⟨(s, p), h, rfl⟩
      have hne : kv.2 ≠ p := fun he => hnd.1 (he ▸ hpm)
      rw [List.filter_cons]
      rw [show (kv.2 == p) = false from beq_eq_false_iff_ne.mpr hne]
      simp only [Bool.false_eq_true, if_false]
      exact ih hnd.2 h

lemma mem_range_of_nodup_bounded (vals : List Nat) (hnd : vals.Nodup) (hlen : vals.length = 8)
    (hbd : ∀ v ∈ vals, v < 8) : ∀ p, p < 8 → p ∈ vals := by
  have hsub : vals.toFinset ⊆ Finset.range 8 := by
    intro x hx
    exact Finset.mem_range.mpr (hbd x (List.mem_toFinset.mp hx))
  have hcard : vals.toFinset.card = 8 := by rw [List.toFinset_card_of_nodup hnd, hlen]
  have heq : vals.toFinset = Finset.range 8 :=
    Finset.eq_of_subset_of_card_le hsub (by rw [hcard]; simp)
  intro p hp
  exact List.mem_toFinset.mp (heq ▸ Finset.mem_range.mpr hp)

lemma length_eq_of_keys (rule : Rule) (hnd : (rule.map Prod.fst).Nodup)
    (hall : ∀ s : St, s ∈ rule.map Prod.fst) : rule.length = 8 := by
  have huniv : (rule.map Prod.fst).toFinset = Finset.univ :=
    Finset.eq_univ_iff_forall.mpr (fun s => List.mem_toFinset.mpr (hall s))
  have hc := List.toFinset_card_of_nodup hnd
  rw [huniv] at hc
  have hcu : (Finset.univ : Finset St).card = 8 := by decide
  rw [hcu] at hc
  rw [List.length_map] at hc
  omega

/-- C10: for every scrambling rule that is a bijection from the eight state
names onto the slots 0-7, `reverse_state_lookup` is its inverse: applying the
rule to `reverse_state_lookup p` gives back `p` for every slot `p < 8`, and
`reverse_state_lookup` applied to the rule's value at a state gives back that
state. -/
theorem reverse_state_lookup_inverse (rule : Rule)
    (hknd : (rule.map Prod.fst).Nodup) (hkall : ∀ s : St, s ∈ rule.map Prod.fst)
    (hvnd : (rule.map Prod.snd).Nodup) (hvbd : ∀ v ∈ rule.map Prod.snd, v < 8) :
    (∀ p, p < 8 → ∃ s, reverse_state_lookup rule p = some s ∧ rule.lookup s = some p) ∧
    (∀ s : St, ∃ p, rule.lookup s = some p ∧ reverse_state_lookup rule p = some s) := by
  have hlen : rule.length = 8 := length_eq_of_keys rule hknd hkall
  have hvlen : (rule.map Prod.snd).length = 8 := by rw [List.length_map, hlen]
  constructor
  · intro p hp
    have hpmem : p ∈ rule.map Prod.snd := mem_range_of_nodup_bounded _ hvnd hvlen hvbd p hp
    obtain ⟨⟨s, p'⟩, hmem, hp'⟩ := List.mem_map.mp hpmem
    simp only at hp'
    subst hp'
    refine ⟨s, ?_, lookup_eq_of_mem hknd hmem⟩
    unfold reverse_state_lookup
    rw [filter_eq_of_snd_nodup hvnd hmem]
    rfl
  · intro s
    obtain ⟨p, hl, hmem⟩ := lookup_of_mem_keys (hkall s)
    refine ⟨p, hl, ?_⟩
    unfold reverse_state_lookup
    rw [filter_eq_of_snd_nodup hvnd hmem]
    rfl

theorem reverse_state_lookup_inverse_witness :
    (∀ p, p < 8 → ∃ s, reverse_state_lookup
        [(.W, 0), (.X, 1), (.Y, 2), (.Z, 3), (.Wp, 4), (.Xp, 5), (.Yp, 6), (.Zp, 7)] p
          = some s ∧
      ([(.W, 0), (.X, 1), (.Y, 2), (.Z, 3), (.Wp, 4), (.Xp, 5), (.Yp, 6), (.Zp, 7)]
        : Rule).lookup s = some p) ∧
    (∀ s : St, ∃ p,
      ([(.W, 0), (.X, 1), (.Y, 2), (.Z, 3), (.Wp, 4), (.Xp, 5), (.Yp, 6), (.Zp, 7)]
        : Rule).lookup s = some p ∧
      reverse_state_lookup
        [(.W, 0), (.X, 1), (.Y, 2), (.Z, 3), (.Wp, 4), (.Xp, 5), (.Yp, 6), (.Zp, 7)] p
          = some s) :=
  reverse_state_lookup_inverse _ (by decide) (by decide) (by decide) (by decide)

/-! ### Object mappings (utils.py, `get_object_mapping`) -/

/-- `SESSION1_OBJECTS` (utils.py). -/
def SESSION1_OBJECTS : List String :=
  ["1backpack", "1computer", "1fish", "1hair", "1table", "1key", "1lettuce", "1boat"]

/-- `SESSION2_OBJECTS` (utils.py). -/
def SESSION2_OBJECTS : List String :=
  ["2beach", "2carrot", "2chair", "2drill", "2hand", "2teapot", "2tree", "2turkey"]

/-- `TRAINING_OBJECTS` (utils.py). -/
def TRAINING_OBJECTS : List String :=
  ["3papaya", "3broccoli", "3eggplant", "3strawberry", "3banana", "3fig", "3asparagus",
   "3pineapple"]

/-- `list_of_letters` (utils.py, get_object_mapping). -/
def list_of_letters : List St := [.W, .X, .Y, .Z, .Wp, .Xp, .Yp, .Zp]

/-- The `if phase == ... / elif ...` chain of `get_object_mapping` selecting
which object list is sampled; any other phase leaves `list_of_images`
undefined in Python (a NameError), modelled by `none`. -/
def phase_objects (phase : String) : Option (List String) :=
  if phase = "training" then some TRAINING_OBJECTS
  else if phase = "structure_learning" then some SESSION1_OBJECTS
  else if phase = "applied_learning" then some SESSION2_OBJECTS
  else none

/-- `new_mapping = dict(zip(list_of_letters, list_of_images))` (utils.py line
210).  `random.sample(objs, len(objs))` returns a permutation of `objs`; the
permutation is the `list_of_images` argument, constrained in the theorems by
`list_of_images.Perm objs`. -/
def get_object_mapping_fresh (list_of_images : List String) : List (St × String) :=
  list_of_letters.zip list_of_images

/-- C5: for every phase among training / structure_learning /
applied_learning and every sample `random.sample` can return, the freshly
created object mapping is a bijection from the eight state letters onto that
phase's eight image names: its keys are exactly `list_of_letters`, its values
are a permutation of the phase's object list, and no image is assigned
twice. -/
theorem get_object_mapping_bijection (phase : String) (objs list_of_images : List String)
    (hph : phase_objects phase = some objs) (hperm : list_of_images.Perm objs) :
    (get_object_mapping_fresh list_of_images).map Prod.fst = list_of_letters ∧
    ((get_object_mapping_fresh list_of_images).map Prod.snd).Perm objs ∧
    ((get_object_mapping_fresh list_of_images).map Prod.snd).Nodup := by
  have hobjs : objs = TRAINING_OBJECTS ∨ objs = SESSION1_OBJECTS ∨ objs = SESSION2_OBJECTS := by
    unfold phase_objects at hph
    split_ifs at hph
    · exact Or.inl (Option.some.inj hph).symm
    · exact Or.inr (Or.inl (Option.some.inj hph).symm)
    · exact Or.inr (Or.inr (Option.some.inj hph).symm)
  have hlen8 : objs.length = 8 := by rcases hobjs with rfl | rfl | rfl <;> rfl
  have hilen : list_of_images.length = 8 := by rw [hperm.length_eq, hlen8]
  have hond : objs.Nodup := by rcases hobjs with rfl | rfl | rfl <;> decide
  have hind : list_of_images.Nodup := (hperm.nodup_iff).mpr hond
  have hsnd : (get_object_mapping_fresh list_of_images).map Prod.snd = list_of_images := by
    apply List.map_snd_zip
    rw [hilen]
    decide
  refine ⟨?_, ?_, ?_⟩
  · apply List.map_fst_zip
    rw [hilen]
    decide
  · rw [hsnd]
    exact hperm
  · rw [hsnd]
    exact hind

theorem get_object_mapping_bijection_witness :
    (get_object_mapping_fresh TRAINING_OBJECTS).map Prod.fst = list_of_letters ∧
    ((get_object_mapping_fresh TRAINING_OBJECTS).map Prod.snd).Perm TRAINING_OBJECTS ∧
    ((get_object_mapping_fresh TRAINING_OBJECTS).map Prod.snd).Nodup :=
  get_object_mapping_bijection "training" TRAINING_OBJECTS TRAINING_OBJECTS rfl
    (List.Perm.refl _)

/-! ### The scrambling-rule store (utils.py, `get_scrambling_rule`) -/

/-- The JSON store `scrambling_rules.json`: subject keys to rules, in
insertion order. -/
abbrev RuleStore := List (String × Rule)

/-- `subject_str = 'subject_' + str(subject_id)` (utils.py line 118). -/
def subject_key (subject_id : Int) : String := "subject_" ++ toString subject_id

/-- `get_scrambling_rule` (utils.py lines 108-131): return the stored rule
for the subject if present, otherwise create a new rule, append it to the
store, persist, and return it.  Returns the rule together with the store as
written back to disk. -/
def get_scrambling_rule (all_rules : RuleStore) (subject_id : Int) (draws : Nat → Nat) :
    Option (Rule × RuleStore) :=
  let subject_str := subject_key subject_id
  match all_rules.lookup subject_str with
  | some rule => some (rule, all_rules)
  | none =>
    match create_random_mapping draws with
    | none => none
    | some new_rule => some (new_rule, all_rules ++ [(subject_str, new_rule)])

lemma lookup_append_singleton_ne {β : Type} (l : List (String × β)) (a k : String) (b : β)
    (h : k ≠ a) : (l ++ [(a, b)]).lookup k = l.lookup k := by
  induction l with
  | nil => simp [List.lookup, beq_eq_false_iff_ne.mpr h]
  | cons p t ih =>
    obtain ⟨k', v⟩ := p
    simp only [List.cons_append, List.lookup]
    cases hk : (k == k')
    · exact ih
    · rfl

lemma lookup_append_singleton_of_none {β : Type} (l : List (String × β)) (a : String) (b : β)
    (h : l.lookup a = none) : (l ++ [(a, b)]).lookup a = some b := by
  induction l with
  | nil => simp [List.lookup]
  | cons p t ih =>
    obtain ⟨k', v⟩ := p
    simp only [List.lookup] at h
    simp only [List.cons_append, List.lookup]
    cases hk : (a == k')
    · rw [hk] at h
      exact ih h
    · rw [hk] at h
      exact Option.noConfusion h

/-- C8: `get_scrambling_rule` returns the stored rule unchanged when one
exists; otherwise it appends a freshly generated rule under this subject's
key without touching any other subject's entry and returns it; consequently
two successive calls with the same subject id return equal rules (and leave
the store unchanged on the second call). -/
theorem get_scrambling_rule_spec (all_rules : RuleStore) (subject_id : Int)
    (draws : Nat → Nat) :
    (∀ r, all_rules.lookup (subject_key subject_id) = some r →
      get_scrambling_rule all_rules subject_id draws = some (r, all_rules)) ∧
    (all_rules.lookup (subject_key subject_id) = none →
      ∃ nr, create_random_mapping draws = some nr ∧
        get_scrambling_rule all_rules subject_id draws =
          some (nr, all_rules ++ [(subject_key subject_id, nr)]) ∧
        (∀ k, k ≠ subject_key subject_id →
          (all_rules ++ [(subject_key subject_id, nr)]).lookup k = all_rules.lookup k) ∧
        (all_rules ++ [(subject_key subject_id, nr)]).lookup (subject_key subject_id)
          = some nr) ∧
    (∀ r1 s1, get_scrambling_rule all_rules subject_id draws = some (r1, s1) →
      ∀ draws2, get_scrambling_rule s1 subject_id draws2 = some (r1, s1)) := by
  refine ⟨?_, ?_, ?_⟩
  · intro r hr
    unfold get_scrambling_rule
    simp only [hr]
  · intro hnone
    obtain ⟨nr, hnr, _, _, _, _⟩ := create_random_mapping_spec draws
    refine ⟨nr, hnr, ?_, ?_, ?_⟩
    · unfold get_scrambling_rule
      simp only [hnone, hnr]
    · intro k hk
      exact lookup_append_singleton_ne _ _ _ _ hk
    · exact lookup_append_singleton_of_none _ _ _ hnone
  · intro r1 s1 h1 draws2
    unfold get_scrambling_rule at h1 ⊢
    cases hl : all_rules.lookup (subject_key subject_id) with
    | some r =>
      simp only [hl, Option.some.injEq] at h1
      obtain ⟨rfl, rfl⟩ := Prod.mk.injEq .. ▸ h1
      simp only [hl]
    | none =>
      simp only [hl] at h1
      cases hcr : create_random_mapping draws with
      | none =>
        rw [hcr] at h1
        exact Option.noConfusion h1
      | some nr =>
        simp only [hcr, Option.some.injEq] at h1
        injection h1 with h1a h1b
        subst h1a
        subst h1b
        have hl2 : (all_rules ++ [(subject_key subject_id, nr)]).lookup
            (subject_key subject_id) = some nr :=
          lookup_append_singleton_of_none _ _ _ hl
        simp only [hl2]

theorem get_scrambling_rule_spec_witness :
    ∃ nr, create_random_mapping (fun _ => 0) = some nr ∧
      get_scrambling_rule [] 0 (fun _ => 0) =
        some (nr, ([] : RuleStore) ++ [(subject_key 0, nr)]) ∧
      (∀ k, k ≠ subject_key 0 →
        (([] : RuleStore) ++ [(subject_key 0, nr)]).lookup k = ([] : RuleStore).lookup k) ∧
      (([] : RuleStore) ++ [(subject_key 0, nr)]).lookup (subject_key 0) = some nr :=
  (get_scrambling_rule_spec [] 0 (fun _ => 0)).2.1 rfl

/-! ### No-response handling (applied_learning.py `quiz_screen`,
functional_localizer.py `run`) -/

/-- `state_map = {'W':1, ..., 'Zp':8}` (applied_learning.py line 298). -/
def state_map : St → Nat
  | .W => 1 | .X => 2 | .Y => 3 | .Z => 4
  | .Wp => 5 | .Xp => 6 | .Yp => 7 | .Zp => 8

/-- The behaviour-CSV row written by `AppliedLearning.run.quiz_screen`
(applied_learning.py lines 315-336), field per column.  `Option` fields model
Python `None` cells; `τ` is the clock's timestamp type, which the code only
passes through. -/
structure ALRow (τ : Type) where
  subject_id : Int
  run_number : Nat
  probe_stimulus_picture : String
  probe_stimulus_true_state : St
  probe_stim_number : Nat
  probe_stim_seq : Nat
  correct_stimulus_picture : String
  correct_stimulus_true_state : St
  correct_stim_number : Nat
  correct_stim_seq : Nat
  incorrect_stimulus_picture : String
  incorrect_stimulus_true_state : St
  incorrect_stim_number : Nat
  incorrect_stim_seq : Nat
  correct_state_on_left : Nat
  key_pressed : Option String
  chosen_true_state : Option St
  chosen_state_picture : Option String
  is_correct : Nat
  reaction_time : Option τ

/-- The tail of `AppliedLearning.run.quiz_screen` (applied_learning.py lines
275-337): given the trial's three states, the side randomisation and the
result of `event.waitKeys(maxWait=CHOICE_DURATION, ...)` (`none` on timeout),
compute the row written to the behaviour CSV. -/
def al_quiz_record {τ : Type} (subject_id : Int) (run_number : Nat)
    (object_mapping : St → String) (probe_state correct_state incorrect_state : St)
    (correct_on_left : Bool) (key_data : Option (String × τ)) : ALRow τ :=
  let res :=
    match key_data with
    | none =>
      -- Subject timed out
      ((none : Option String), (none : Option τ), false, (none : Option St),
        (none : Option String))
    | some (key, rt) =>
      let sj_correctness := (key == "2" && correct_on_left) || (key == "1" && !correct_on_left)
      let chosen_state :=
        if key == "2" && correct_on_left || key == "1" && !correct_on_left then correct_state
        else incorrect_state
      let chosen_obj := (object_mapping chosen_state).drop 1
      (some key, some rt, sj_correctness, some chosen_state, some chosen_obj)
  { subject_id := subject_id
    run_number := run_number + 1
    probe_stimulus_picture := (object_mapping probe_state).drop 1
    probe_stimulus_true_state := probe_state
    probe_stim_number := state_map probe_state
    probe_stim_seq := if state_map probe_state ≤ 4 then 1 else 2
    correct_stimulus_picture := (object_mapping correct_state).drop 1
    correct_stimulus_true_state := correct_state
    correct_stim_number := state_map correct_state
    correct_stim_seq := if state_map correct_state ≤ 4 then 1 else 2
    incorrect_stimulus_picture := (object_mapping incorrect_state).drop 1
    incorrect_stimulus_true_state := incorrect_state
    incorrect_stim_number := state_map incorrect_state
    incorrect_stim_seq := if state_map incorrect_state ≤ 4 then 1 else 2
    correct_state_on_left := if correct_on_left then 1 else 0
    key_pressed := res.1
    chosen_true_state := res.2.2.2.1
    chosen_state_picture := res.2.2.2.2
    is_correct := if res.2.2.1 then 1 else 0
    reaction_time := res.2.1 }

/-- `CORRECT_KEY` (functional_localizer.py). -/
def CORRECT_KEY : String := "1"

/-- `INCORRECT_KEY` (functional_localizer.py). -/
def INCORRECT_KEY : String := "2"

/-- The behaviour-CSV row written by `FunctionalLocalizer.run`
(functional_localizer.py lines 191-198).  `none` models the empty-string
cells written on timeout. -/
structure FLRow (τ : Type) where
  subject_id : Int
  trial_number : Nat
  image_name : String
  text_name : String
  is_match : Bool
  key_pressed : Option String
  is_correct : Option Bool
  reaction_time : Option τ

/-- The per-trial response handling of `FunctionalLocalizer.run`
(functional_localizer.py lines 183-198): given the trial's stimuli and the
result of `event.waitKeys(maxWait=TEXT_DURATION, ...)`, the row written to
the behaviour CSV. -/
def fl_trial_record {τ : Type} (subject_id : Int) (trial_num : Nat)
    (obj_name text_name : String) (is_match : Bool)
    (keys : Option (String × τ)) : FLRow τ :=
  match keys with
  | some (key, rt) =>
    let correct := (key == CORRECT_KEY && is_match) || (key == INCORRECT_KEY && !is_match)
    { subject_id := subject_id, trial_number := trial_num, image_name := obj_name
      text_name := text_name, is_match := is_match, key_pressed := some key
      is_correct := some correct, reaction_time := some rt }
  | none =>
    { subject_id := subject_id, trial_number := trial_num, image_name := obj_name
      text_name := text_name, is_match := is_match, key_pressed := none
      is_correct := none, reaction_time := none }

/-- C7: when the response window elapses with no keypress, both the
applied-learning quiz trial and the functional-localizer trial still produce
a CSV row for that trial: the key, chosen state/picture and reaction time are
absent, correctness is recorded as 0 (applied learning) respectively empty
(functional localizer), and the row still carries the trial's identifying
fields. -/
theorem timeout_rows_no_response (τ : Type) (subject_id : Int) (run_number : Nat)
    (object_mapping : St → String) (probe_state correct_state incorrect_state : St)
    (correct_on_left : Bool) (trial_num : Nat) (obj_name text_name : String)
    (is_match : Bool) :
    ((al_quiz_record (τ := τ) subject_id run_number object_mapping probe_state
        correct_state incorrect_state correct_on_left none).key_pressed = none ∧
     (al_quiz_record (τ := τ) subject_id run_number object_mapping probe_state
        correct_state incorrect_state correct_on_left none).chosen_true_state = none ∧
     (al_quiz_record (τ := τ) subject_id run_number object_mapping probe_state
        correct_state incorrect_state correct_on_left none).chosen_state_picture = none ∧
     (al_quiz_record (τ := τ) subject_id run_number object_mapping probe_state
        correct_state incorrect_state correct_on_left none).reaction_time = none ∧
     (al_quiz_record (τ := τ) subject_id run_number object_mapping probe_state
        correct_state incorrect_state correct_on_left none).is_correct = 0 ∧
     (al_quiz_record (τ := τ) subject_id run_number object_mapping probe_state
        correct_state incorrect_state correct_on_left none).run_number = run_number + 1 ∧
     (al_quiz_record (τ := τ) subject_id run_number object_mapping probe_state
        correct_state incorrect_state correct_on_left none).probe_stimulus_true_state
        = probe_state) ∧
    ((fl_trial_record (τ := τ) subject_id trial_num obj_name text_name is_match
        none).key_pressed = none ∧
     (fl_trial_record (τ := τ) subject_id trial_num obj_name text_name is_match
        none).is_correct = none ∧
     (fl_trial_record (τ := τ) subject_id trial_num obj_name text_name is_match
        none).reaction_time = none ∧
     (fl_trial_record (τ := τ) subject_id trial_num obj_name text_name is_match
        none).trial_number = trial_num ∧
     (fl_trial_record (τ := τ) subject_id trial_num obj_name text_name is_match
        none).image_name = obj_name) :=
  ⟨⟨rfl, rfl, rfl, rfl, rfl, rfl, rfl⟩, rfl, rfl, rfl, rfl, rfl⟩
